import Mathlib

/-!
A shallow embedding of the candidate-resolution and ranking engine of
`okcli` (file `okcli/sqlcompleter.py`, class `SQLCompleter`), together with
theorems checking the natural-language specification against it.

Python dictionaries are modelled as insertion-ordered association lists,
Python sets as `Finset String`, and Python strings as Lean `String`s.
A lazily enumerated input sequence that may raise while being consumed is
modelled as an `Option` of the fully materialised list (`none` = the
enumeration raised at some point, in which case the `try/except` in the
source replaces the whole batch by `[]`).  An exception that the source
lets escape is modelled by a `Bool` component of the result (`true` = the
call raised).
-/

namespace Okcli

/-- Insertion-ordered string-keyed dictionary, as a Python `dict`. -/
abbrev Dict (α : Type) := List (String × α)

/-- Python `d[k]` lookup returning `none` instead of raising `KeyError`. -/
def dget {α : Type} : Dict α → String → Option α
  | [], _ => none
  | (k', v) :: rest, k => if k' = k then some v else dget rest k

/-- Python `d[k] = v`: replace in place if the key exists, else append. -/
def dinsert {α : Type} : Dict α → String → α → Dict α
  | [], k, v => [(k, v)]
  | (k', v') :: rest, k, v =>
    if k' = k then (k, v) :: rest else (k', v') :: dinsert rest k v

/-- Two-level lookup `d[k1][k2]`, `none` if either key is missing. -/
def dget2 {α : Type} (d : Dict (Dict α)) (k1 k2 : String) : Option α :=
  match dget d k1 with
  | none => none
  | some m => dget m k2

/-- The keys of a dictionary, in storage order (Python `d.keys()`). -/
def dkeys {α : Type} (d : Dict α) : List String := d.map Prod.fst

/-- Python `str.upper()` restricted to its ASCII behaviour, via `Char.toUpper`. -/
def pyUpper (s : String) : String := ⟨s.data.map Char.toUpper⟩

/-- Python `str.lower()` restricted to its ASCII behaviour, via `Char.toLower`. -/
def pyLower (s : String) : String := ⟨s.data.map Char.toLower⟩

/-- Python `a or b` for an optional string `a`: `None` and `''` are falsy. -/
def pyOr (o : Option String) (d : String) : String :=
  match o with
  | none => d
  | some s => if s = "" then d else s

/-- Python truthiness of an optional string. -/
def pyTruthy (o : Option String) : Bool :=
  match o with
  | none => false
  | some s => s != ""

theorem char_toNat_ofNat_valid (n : Nat) (h : n.isValidChar) :
    (Char.ofNat n).toNat = n := by
  rw [Char.ofNat, dif_pos h]
  rfl

theorem toUpper_toNat_of_lower (c : Char) (h1 : 97 ≤ c.toNat) (h2 : c.toNat ≤ 122) :
    (Char.toUpper c).toNat = c.toNat - 32 := by
  rw [Char.toUpper]
  simp only [ge_iff_le, if_pos (And.intro h1 h2)]
  exact char_toNat_ofNat_valid _ (Or.inl (by omega))

theorem toUpper_eq_of_not_lower (c : Char) (h : ¬ (97 ≤ c.toNat ∧ c.toNat ≤ 122)) :
    Char.toUpper c = c := by
  rw [Char.toUpper]
  simp only [ge_iff_le, if_neg h]

theorem toUpper_idem (c : Char) : Char.toUpper (Char.toUpper c) = Char.toUpper c := by
  by_cases h : 97 ≤ c.toNat ∧ c.toNat ≤ 122
  · have := toUpper_toNat_of_lower c h.1 h.2
    exact toUpper_eq_of_not_lower _ (by omega)
  · simp only [toUpper_eq_of_not_lower c h]

theorem pyUpper_idem (s : String) : pyUpper (pyUpper s) = pyUpper s := by
  simp only [pyUpper, List.map_map]
  congr 1
  exact List.map_congr_left fun a _ => toUpper_idem a

/-- First-occurrence deduplication (what building a Python `set` from a list and
then enumerating it gives, for counting purposes; also used to model
`collections.Counter` iteration order). `seen` accumulates keys already kept. -/
def dedupFirstAux : List String → List String → List String
  | [], _ => []
  | x :: xs, seen =>
    if x ∈ seen then dedupFirstAux xs seen else x :: dedupFirstAux xs (x :: seen)

/-- `SQLCompleter.str_functions`. -/
def str_functions : List String :=
  ["ASCII", "ASCIISTR", "CHR", "COMPOSE", "CONCAT", "CONVERT",
   "DECOMPOSE", "DUMP", "INITCAP", "INSTR", "INSTR2",
   "INSTR4", "INSTRB", "INSTRC",
   "LENGTH", "LENGTH2", "LENGTH4",
   "LENGTHB", "LENGTHC", "LOWER", "LPAD", "LTRIM", "NCHR",
   "REGEXP_INSTR", "REGEXP_REPLACE", "REGEXP_SUBSTR",
   "REPLACE", "RPAD", "RTRIM", "SOUNDEX", "SUBSTR",
   "TRANSLATE", "TRIM", "UPPER", "VSIZE"]

/-- `SQLCompleter.num_functions`. -/
def num_functions : List String :=
  ["ABS", "ACOS", "ASIN", "ATAN", "ATAN2",
   "AVG", "BITAND", "CEIL", "COS", "COSH", "COUNT", "EXP",
   "FLOOR", "GREATEST", "LEAST", "LN", "LOG", "MAX", "MEDIAN",
   "MIN", "MOD", "POWER", "REGEXP_COUNT", "REMAINDER",
   "ROUND", "ROWNUM", "SIGN", "SIN", "SINH", "SQRT", "SUM",
   "TAN", "TANH", "TRUNC"]

/-- `SQLCompleter.date_functions`. -/
def date_functions : List String :=
  ["ADD_MONTHS", "CURRENT_DATE", "CURRENT_TIMESTAMP",
   "DBTIMEZONE", "EXTRACT", "LAST_DAY", "LOCALTIMESTAMP",
   "MONTHS_BETWEEN", "NEW_TIME", "NEXT_DAY", "ROUND",
   "SESSIONTIMEZONE", "SYSDATE", "SYSTIMESTAMP", "TRUNC",
   "TZ_OFFSET"]

/-- `SQLCompleter.conv_functions`. -/
def conv_functions : List String :=
  ["BIN_TO_NUM", "CAST", "CHARTOROWID", "FROM_TZ",
   "HEXTORAW", "NUMTODSINTERVAL", "NUMTOYMINTERVAL",
   "RAWTOHEX", "TO_CHAR", "TO_CLOB", "TO_DATE",
   "TO_DSINTERVAL", "TO_LOB", "TO_MULTI_BYTE", "TO_NCLOB",
   "TO_NUMBER", "TO_SINGLE_BYTE", "TO_TIMESTAMP",
   "TO_TIMESTAMP_TZ", "TO_YMINTERVAL"]

/-- `SQLCompleter.analytic_functions`. -/
def analytic_functions : List String :=
  ["CORR", "COVAR_POP", "COVAR_SAMP", "CUME_DIST",
   "DENSE_RANK", "FIRST_VALUE", "LAG", "LAST_VALUE",
   "LEAD", "LISTAGG", "NTH_VALUE", "RANK", "STDDEV",
   "VAR_POP", "VAR_SAMP", "VARIANCE"]

/-- `SQLCompleter.advanced_fuctions` (sic). -/
def advanced_fuctions : List String :=
  ["BFILENAME", "CARDINALITY", "CASE", "COALESCE",
   "DECODE", "EMPTY_BLOB", "EMPTY_CLOB", "GROUP_ID",
   "LNNVL", "NANVL", "NULLIF", "NVL", "NVL2",
   "SYS_CONTEXT", "UID", "USER", "USERENV"]

/-- Lexicographic order on character lists by code point (Python string
comparison). -/
def charListLe : List Char → List Char → Bool
  | [], _ => true
  | _ :: _, [] => false
  | c :: cs, d :: ds =>
    if c.toNat = d.toNat then charListLe cs ds else decide (c.toNat < d.toNat)

theorem charListLe_total : ∀ a b : List Char, charListLe a b = true ∨ charListLe b a = true := by
  intro a
  induction a with
  | nil => intro b; exact Or.inl rfl
  | cons c cs ih =>
    intro b
    cases b with
    | nil => exact Or.inr rfl
    | cons d ds =>
      by_cases hcd : c.toNat = d.toNat
      · rcases ih ds with h | h
        · exact Or.inl (by simp [charListLe, hcd, h])
        · exact Or.inr (by simp [charListLe, hcd.symm, h])
      · rcases Nat.lt_or_ge c.toNat d.toNat with h | h
        · exact Or.inl (by simp [charListLe, hcd, h])
        · have hdc : d.toNat < c.toNat := by omega
          have hcd2 : ¬ d.toNat = c.toNat := by omega
          exact Or.inr (by simp [charListLe, hcd2, hdc])

theorem charListLe_trans : ∀ a b c : List Char,
    charListLe a b = true → charListLe b c = true → charListLe a c = true := by
  intro a
  induction a with
  | nil => intro b c _ _; rfl
  | cons x xs ih =>
    intro b c hab hbc
    cases b with
    | nil => simp [charListLe] at hab
    | cons y ys =>
      cases c with
      | nil => simp [charListLe] at hbc
      | cons z zs =>
        simp only [charListLe] at hab hbc ⊢
        by_cases hxy : x.toNat = y.toNat
        · rw [if_pos hxy] at hab
          by_cases hyz : y.toNat = z.toNat
          · rw [if_pos hyz] at hbc
            rw [if_pos (hxy.trans hyz)]
            exact ih ys zs hab hbc
          · rw [if_neg hyz] at hbc
            have : y.toNat < z.toNat := of_decide_eq_true hbc
            have hxz : ¬ x.toNat = z.toNat := by omega
            rw [if_neg hxz]
            exact decide_eq_true (by omega)
        · rw [if_neg hxy] at hab
          have hx : x.toNat < y.toNat := of_decide_eq_true hab
          by_cases hyz : y.toNat = z.toNat
          · have hxz : ¬ x.toNat = z.toNat := by omega
            rw [if_neg hxz]
            exact decide_eq_true (by omega)
          · rw [if_neg hyz] at hbc
            have hy : y.toNat < z.toNat := of_decide_eq_true hbc
            have hxz : ¬ x.toNat = z.toNat := by omega
            rw [if_neg hxz]
            exact decide_eq_true (by omega)

/-- Python `a <= b` on strings (lexicographic by code point), as a relation. -/
def strLeP (a b : String) : Prop := charListLe a.data b.data = true

instance : DecidableRel strLeP := fun a b =>
  inferInstanceAs (Decidable (charListLe a.data b.data = true))

instance : IsTotal String strLeP := ⟨fun a b => charListLe_total a.data b.data⟩

instance : IsTrans String strLeP :=
  ⟨fun a b c => charListLe_trans a.data b.data c.data⟩

/-- `SQLCompleter.functions`: the built-in function vocabulary,
`sorted(set(str_functions + num_functions + ... + advanced_fuctions))`. -/
def functions : List String :=
  List.insertionSort strLeP
    (dedupFirstAux
      (str_functions ++ num_functions ++ date_functions ++ conv_functions ++
        analytic_functions ++ advanced_fuctions) [])

/-- The session-mutable state of a `SQLCompleter` instance.  The three
object maps are the entries of `self.dbmetadata`; `all_completions` is the
global completion set. -/
structure SQLCompleter where
  keywords : List String
  special_commands : List String
  table_formats : List String
  databases : List String
  users : List String
  show_items : List String
  change_items : List String
  dbname : String
  tables : Dict (Dict (List String))
  views : Dict (Dict (List String))
  functions_meta : Dict (Dict Unit)
  all_completions : Finset String
deriving DecidableEq

/-- The `kind` argument of `extend_relations` / `extend_columns`:
either `'tables'` or `'views'`. -/
inductive RelKind where
  | tables : RelKind
  | views : RelKind
deriving DecidableEq

/-- `self.dbmetadata[kind]` for a relation kind. -/
def relMap (st : SQLCompleter) : RelKind → Dict (Dict (List String))
  | .tables => st.tables
  | .views => st.views

/-- Writing back `self.dbmetadata[kind]`. -/
def setRelMap (st : SQLCompleter) : RelKind → Dict (Dict (List String)) → SQLCompleter
  | .tables, d => { st with tables := d }
  | .views, d => { st with views := d }

/-- The `obj_type` argument of `populate_schema_objects`. -/
inductive ObjType where
  | tables : ObjType
  | views : ObjType
  | functions : ObjType
deriving DecidableEq

/-- `SQLCompleter.escape_name` (the identity in this dialect). -/
def escape_name (name : String) : String := name

/-- `SQLCompleter.unescape_name`: strip one level of double quotes. -/
def unescape_name (name : String) : String :=
  if name ≠ "" ∧ name.front = '"' ∧ name.back = '"' then
    (name.drop 1).dropRight 1
  else name

/-- `SQLCompleter.reset_completions`. -/
def reset_completions (st : SQLCompleter) : SQLCompleter :=
  { st with
    databases := [], users := [], show_items := [], dbname := "",
    tables := [], views := [], functions_meta := [],
    all_completions := (st.keywords ++ functions).toFinset }

/-- `SQLCompleter.__init__` (keywords and supported formats are supplied
externally). -/
def init_state (keywords : List String) (supported_formats : List String) : SQLCompleter :=
  reset_completions
    { keywords := keywords, special_commands := [], table_formats := supported_formats,
      databases := [], users := [], show_items := [], change_items := [], dbname := "",
      tables := [], views := [], functions_meta := [], all_completions := ∅ }

/-- `SQLCompleter.set_dbname`. -/
def set_dbname (st : SQLCompleter) (dbname : String) : SQLCompleter :=
  { st with dbname := pyUpper dbname }

/-- `SQLCompleter._extend_schemata`: uppercase the name, give every
object-kind map an empty entry for it, and `all_completions.update(schema)` —
which, `schema` being a single string, adds its individual characters. -/
def extend_schemata_single (st : SQLCompleter) (schema : String) : SQLCompleter :=
  { st with
    tables := dinsert st.tables (pyUpper schema) [],
    views := dinsert st.views (pyUpper schema) [],
    functions_meta := dinsert st.functions_meta (pyUpper schema) [],
    all_completions :=
      st.all_completions ∪ ((pyUpper schema).data.map (fun c => String.mk [c])).toFinset }

/-- `SQLCompleter.extend_schemata`. -/
def extend_schemata (st : SQLCompleter) (schemas : List String) : SQLCompleter :=
  schemas.foldl extend_schemata_single st

/-- One iteration of the loop body of `extend_relations`: store the relation
under the (already uppercased) schema if the schema is known (a `KeyError`
is caught and only logged otherwise), and always add the name to the global
completion set. -/
def relation_step (kind : RelKind) (schema : String) (st : SQLCompleter) (name : String) :
    SQLCompleter :=
  match dget (relMap st kind) schema with
  | some m =>
    let st1 := setRelMap st kind (dinsert (relMap st kind) schema (dinsert m name ["*"]))
    { st1 with all_completions := insert name st1.all_completions }
  | none => { st with all_completions := insert name st.all_completions }

/-- `SQLCompleter.extend_relations`.  `data = none` models the lazy entries
sequence raising during enumeration, which the source catches, replacing the
batch by `[]`. -/
def extend_relations (st : SQLCompleter) (data : Option (List String)) (kind : RelKind)
    (schema : String) : SQLCompleter :=
  ((data.getD []).map escape_name).foldl (relation_step kind (pyUpper schema)) st

/-- The loop of `extend_columns`: append each column to its relation's
column list.  A missing schema or relation raises `KeyError` out of the call
(modelled by the `true` flag), keeping the mutations already applied. -/
def extend_columns_go (kind : RelKind) (schema : String) :
    SQLCompleter → List (String × String) → SQLCompleter × Bool
  | st, [] => (st, false)
  | st, (rel, col) :: rest =>
    match dget (relMap st kind) schema with
    | none => (st, true)
    | some m =>
      match dget m rel with
      | none => (st, true)
      | some cols =>
        let st1 := setRelMap st kind (dinsert (relMap st kind) schema (dinsert m rel (cols ++ [col])))
        extend_columns_go kind schema
          { st1 with all_completions := insert col st1.all_completions } rest

/-- `SQLCompleter.extend_columns`.  The Boolean is `true` iff the call lets a
`KeyError` escape (columns extended for an unregistered relation). -/
def extend_columns (st : SQLCompleter) (column_data : Option (List (String × String)))
    (kind : RelKind) (schema : String) : SQLCompleter × Bool :=
  extend_columns_go kind (pyUpper schema) st
    ((column_data.getD []).map (fun rc => (escape_name rc.1, escape_name rc.2)))

/-- The loop of `extend_functions`: register each function name under the
given schema (the source does not uppercase it here); a missing schema key
raises `KeyError` out of the call. -/
def extend_functions_go (schema : String) :
    SQLCompleter → List String → SQLCompleter × Bool
  | st, [] => (st, false)
  | st, f :: rest =>
    match dget st.functions_meta schema with
    | none => (st, true)
    | some m =>
      extend_functions_go schema
        { st with
          functions_meta := dinsert st.functions_meta schema (dinsert m f ()),
          all_completions := insert f st.all_completions } rest

/-- `SQLCompleter.extend_functions`. -/
def extend_functions (st : SQLCompleter) (func_data : Option (List String))
    (schema : String) : SQLCompleter × Bool :=
  extend_functions_go schema st ((func_data.getD []).map escape_name)

/-- `SQLCompleter.extend_change_items`: each argument element is itself
iterated (a row of strings). -/
def extend_change_items (st : SQLCompleter) (change_items : List (List String)) :
    SQLCompleter :=
  change_items.foldl
    (fun st row =>
      { st with
        change_items := st.change_items ++ row,
        all_completions := st.all_completions ∪ row.toFinset }) st

/-- One iteration of the loop of `populate_scoped_cols`: resolve the
reference's schema (explicit schema or else the current database, falsy
strings falling through, then uppercased), then try
`tables[schema][relname]`, then `tables[schema][escaped_relname]`, then
`views[schema][relname]`, extending the accumulated column list with the
first hit and contributing nothing when all three lookups fail. -/
def scoped_col_step (st : SQLCompleter) (columns : List String)
    (tbl : Option String × String × Option String) : List String :=
  match dget2 st.tables (pyUpper (pyOr tbl.1 st.dbname)) tbl.2.1 with
  | some cols => columns ++ cols
  | none =>
    match dget2 st.tables (pyUpper (pyOr tbl.1 st.dbname)) (escape_name tbl.2.1) with
    | some cols => columns ++ cols
    | none =>
      match dget2 st.views (pyUpper (pyOr tbl.1 st.dbname)) tbl.2.1 with
      | some cols => columns ++ cols
      | none => columns

/-- `SQLCompleter.populate_scoped_cols` over a list of
`(schema, table, alias)` references. -/
def populate_scoped_cols (st : SQLCompleter)
    (scoped_tbls : List (Option String × String × Option String)) : List String :=
  scoped_tbls.foldl (scoped_col_step st) []

/-- Resolution of a single table reference, written after the wording of the
specification (§4.2): resolve the schema to the explicit schema or else the
current database, uppercased; look the relation up first under
`tables[schema]`, then under the escaped name form, then under
`views[schema]`; if absent in all, contribute no columns. -/
def spec_resolve_ref (st : SQLCompleter)
    (tbl : Option String × String × Option String) : List String :=
  match dget2 st.tables (pyUpper (pyOr tbl.1 st.dbname)) tbl.2.1 with
  | some cols => cols
  | none =>
    match dget2 st.tables (pyUpper (pyOr tbl.1 st.dbname)) (escape_name tbl.2.1) with
    | some cols => cols
    | none =>
      match dget2 st.views (pyUpper (pyOr tbl.1 st.dbname)) tbl.2.1 with
      | some cols => cols
      | none => []

/-- The key list of the object map of the given kind under a schema, or
`none` when the schema is unknown. -/
def schema_objects_keys (st : SQLCompleter) (o : ObjType) (s : String) :
    Option (List String) :=
  match o with
  | .tables => (dget st.tables s).map dkeys
  | .views => (dget st.views s).map dkeys
  | .functions => (dget st.functions_meta s).map dkeys

/-- `SQLCompleter.populate_schema_objects`: the objects of the given kind in
the (optional) schema, defaulting to the current database; an unknown schema
yields `[]` (the `KeyError` is caught). -/
def populate_schema_objects (st : SQLCompleter) (schema : Option String)
    (o : ObjType) : List String :=
  (schema_objects_keys st o (pyUpper (pyOr schema st.dbname))).getD []

/-- The `drop_unique` post-filter of the column suggestion branch of
`get_completions`: keep, in first-occurrence order (`collections.Counter`
iteration order), only the column names occurring more than once in the
scoped column list, excluding the wildcard sentinel. -/
def drop_unique_filter (scoped_cols : List String) : List String :=
  (dedupFirstAux scoped_cols []).filter
    (fun col => decide (1 < scoped_cols.count col) && col != "*")

/-- A word character per the specification's token-extraction contract:
alphanumeric or underscore. -/
def isWordChar (c : Char) : Bool := c.isAlphanum || c = '_'

/-- Modelled from the spec: `last_word` (from `okcli.packages.parseutils`,
whose source is not part of this tree) extracts the last contiguous word of
the text, where word characters are alphanumerics and underscore and most
punctuation and whitespace are boundaries (§4.3 step 1, §6). -/
def last_word (text : String) : String :=
  ⟨(text.data.reverse.takeWhile isWordChar).reverse⟩

/-- The matching token of `find_matches`: the last word of the input,
lowercased. -/
def tokenOf (text : String) : String := pyLower (last_word text)

/-- `cs` occurs as a (not necessarily contiguous) subsequence of `s`. -/
def subseq : List Char → List Char → Bool
  | [], _ => true
  | _ :: _, [] => false
  | c :: cs, d :: ds => if c = d then subseq cs ds else subseq (c :: cs) ds

/-- The end offset of the lazy (leftmost-shortest-gap) match of the
subsequence pattern `cs` against `s`, matching from the head of `s`:
each pattern character is taken at its earliest possible occurrence. -/
def greedyEnd : List Char → List Char → Option Nat
  | [], _ => some 0
  | _ :: _, [] => none
  | c :: cs, d :: ds =>
    if c = d then (greedyEnd cs ds).map (· + 1)
    else (greedyEnd (c :: cs) ds).map (· + 1)

/-- The leftmost lazy match of the regex `c1.*?c2.*?…cn` built from the
token characters (`find_matches`, fuzzy mode) against `s`:
`some (start, length)` of the matched span, `none` when the token is not a
subsequence of `s`.  An empty token matches at offset 0 with length 0. -/
def fuzzyMatch : List Char → List Char → Option (Nat × Nat)
  | [], _ => some (0, 0)
  | _ :: _, [] => none
  | c :: cs, d :: ds =>
    if c = d then (greedyEnd cs ds).map (fun e => (0, e + 1))
    else (fuzzyMatch (c :: cs) ds).map (fun pl => (pl.1 + 1, pl.2))

/-- `t` is a prefix of `s` (as character lists). -/
def startsList : List Char → List Char → Bool
  | [], _ => true
  | _ :: _, [] => false
  | c :: cs, d :: ds => c = d && startsList cs ds

/-- The pattern `t` occurs contiguously in `s` at offset `p`. -/
def substrAt (s t : List Char) (p : Nat) : Bool := startsList t (s.drop p)

/-- Python `s.find(t, 0, limit)`: the first offset of a contiguous
occurrence of `t` that ends within the first `limit` characters
(no end constraint when `limit` is `none`); `none` models the result `-1`. -/
def strFind (s t : List Char) (limit : Option Nat) : Option Nat :=
  (List.range (s.length + 1)).find?
    (fun p =>
      substrAt s t p &&
        match limit with
        | some L => decide (p + t.length ≤ L)
        | none => true)

/-- Lexicographic order on the score triples
`(matched-span length, match start offset, candidate text)` — Python's
tuple comparison, used by the final `sorted(completions)`. -/
def tripleLe (a b : Nat × Nat × String) : Prop :=
  a.1 < b.1 ∨ (a.1 = b.1 ∧ (a.2.1 < b.2.1 ∨ (a.2.1 = b.2.1 ∧ strLeP a.2.2 b.2.2)))

instance : DecidableRel tripleLe := fun a b => by
  unfold tripleLe
  exact inferInstance

instance : IsTotal (Nat × Nat × String) tripleLe := by
  constructor
  intro a b
  unfold tripleLe
  rcases Nat.lt_trichotomy a.1 b.1 with h | h | h
  · exact Or.inl (Or.inl h)
  · rcases Nat.lt_trichotomy a.2.1 b.2.1 with h2 | h2 | h2
    · exact Or.inl (Or.inr ⟨h, Or.inl h2⟩)
    · rcases charListLe_total a.2.2.data b.2.2.data with h3 | h3
      · exact Or.inl (Or.inr ⟨h, Or.inr ⟨h2, h3⟩⟩)
      · exact Or.inr (Or.inr ⟨h.symm, Or.inr ⟨h2.symm, h3⟩⟩)
    · exact Or.inr (Or.inr ⟨h.symm, Or.inl h2⟩)
  · exact Or.inr (Or.inl h)

instance : IsTrans (Nat × Nat × String) tripleLe := by
  constructor
  intro a b c hab hbc
  unfold tripleLe at hab hbc ⊢
  rcases hab with h1 | ⟨e1, hab'⟩
  · rcases hbc with h2 | ⟨e2, _⟩
    · exact Or.inl (h1.trans h2)
    · exact Or.inl (e2 ▸ h1)
  · rcases hbc with h2 | ⟨e2, hbc'⟩
    · exact Or.inl (e1 ▸ h2)
    · refine Or.inr ⟨e1.trans e2, ?_⟩
      rcases hab' with h1 | ⟨f1, hab2⟩
      · rcases hbc' with h2 | ⟨f2, _⟩
        · exact Or.inl (h1.trans h2)
        · exact Or.inl (f2 ▸ h1)
      · rcases hbc' with h2 | ⟨f2, hbc2⟩
        · exact Or.inl (f1 ▸ h2)
        · exact Or.inr ⟨f1.trans f2, charListLe_trans _ _ _ hab2 hbc2⟩

/-- The score-triple list of `SQLCompleter.find_matches`: extract and
lowercase the last word of the text; enumerate the candidates sorted
lexicographically; for every candidate that matches — lazy subsequence
regex search in fuzzy mode, `str.find` with an end limit of the token
length when `start_only` in plain mode — record
`(matched-span length, match start, candidate)`; finally sort the triples
by Python tuple order. -/
def find_matches_scored (text : String) (collection : List String)
    (start_only fuzzy : Bool) : List (Nat × Nat × String) :=
  let tok := (tokenOf text).data
  List.insertionSort tripleLe
    (if fuzzy then
      (List.insertionSort strLeP collection).filterMap
        (fun item => (fuzzyMatch tok (pyLower item).data).map (fun pl => (pl.2, pl.1, item)))
    else
      (List.insertionSort strLeP collection).filterMap
        (fun item =>
          (strFind (pyLower item).data tok
              (if start_only then some tok.length else none)).map
            (fun p => (tok.length, p, item))))

/-- `SQLCompleter.find_matches`: the ordered completions, each the candidate
text paired with the replacement offset `-len(token)`
(`Completion(z, -len(text))` in the source). -/
def find_matches (text : String) (collection : List String)
    (start_only fuzzy : Bool) : List (String × Int) :=
  (find_matches_scored text collection start_only fuzzy).map
    (fun t => (t.2.2, -((tokenOf text).length : Int)))

/-- The `keyword` branch of `get_completions`: prefix-only, non-fuzzy
matching against the keyword vocabulary. -/
def keyword_completions (st : SQLCompleter) (word_before_cursor : String) :
    List (String × Int) :=
  find_matches word_before_cursor st.keywords true false

/-- The `function` branch of `get_completions`: user-defined functions of the
scoped schema by fuzzy matching, then — only without a (truthy) schema
qualifier — the built-in function vocabulary by prefix-only matching. -/
def function_branch (st : SQLCompleter) (schema : Option String)
    (word_before_cursor : String) : List (String × Int) :=
  let user_funcs :=
    find_matches word_before_cursor (populate_schema_objects st schema ObjType.functions)
      false true
  if pyTruthy schema then user_funcs
  else user_funcs ++ find_matches word_before_cursor functions true false

/-- The `column` branch of `get_completions`: fuzzy matching over the scoped
columns, post-filtered by `drop_unique_filter` when requested. -/
def column_branch (st : SQLCompleter)
    (tables : List (Option String × String × Option String)) (drop_unique : Bool)
    (word_before_cursor : String) : List (String × Int) :=
  let scoped_cols := populate_scoped_cols st tables
  find_matches word_before_cursor
    (if drop_unique then drop_unique_filter scoped_cols else scoped_cols) false true

/-! ### Supporting lemmas -/

theorem scoped_col_step_eq (st : SQLCompleter) (acc : List String)
    (t : Option String × String × Option String) :
    scoped_col_step st acc t = acc ++ spec_resolve_ref st t := by
  unfold scoped_col_step spec_resolve_ref
  rcases h1 : dget2 st.tables (pyUpper (pyOr t.1 st.dbname)) t.2.1 with _ | cols
  · rcases h2 : dget2 st.tables (pyUpper (pyOr t.1 st.dbname)) (escape_name t.2.1) with _ | cols
    · rcases h3 : dget2 st.views (pyUpper (pyOr t.1 st.dbname)) t.2.1 with _ | cols
      · simp [h1, h2, h3]
      · simp [h1, h2, h3]
    · simp [h1, h2]
  · simp [h1]

theorem populate_scoped_cols_aux (st : SQLCompleter)
    (refs : List (Option String × String × Option String)) :
    ∀ acc : List String,
      refs.foldl (scoped_col_step st) acc = acc ++ (refs.map (spec_resolve_ref st)).flatten := by
  induction refs with
  | nil => intro acc; simp
  | cons t ts ih =>
    intro acc
    simp only [List.foldl_cons, List.map_cons, List.flatten_cons]
    rw [scoped_col_step_eq, ih, List.append_assoc]

theorem mem_dedupFirstAux (c : String) :
    ∀ (l seen : List String), c ∈ dedupFirstAux l seen ↔ c ∈ l ∧ c ∉ seen := by
  intro l
  induction l with
  | nil => intro seen; simp [dedupFirstAux]
  | cons x xs ih =>
    intro seen
    unfold dedupFirstAux
    by_cases hx : x ∈ seen
    · rw [if_pos hx, ih]
      constructor
      · rintro ⟨h1, h2⟩
        exact ⟨List.mem_cons_of_mem _ h1, h2⟩
      · rintro ⟨h1, h2⟩
        rcases List.mem_cons.mp h1 with rfl | h1
        · exact absurd hx h2
        · exact ⟨h1, h2⟩
    · rw [if_neg hx]
      constructor
      · intro h
        rcases List.mem_cons.mp h with rfl | h
        · exact ⟨List.mem_cons_self _ _, hx⟩
        · rcases (ih (x :: seen)).mp h with ⟨h1, h2⟩
          refine ⟨List.mem_cons_of_mem _ h1, fun hc => h2 (List.mem_cons_of_mem _ hc)⟩
      · rintro ⟨h1, h2⟩
        rcases List.mem_cons.mp h1 with rfl | h1
        · exact List.mem_cons_self _ _
        · by_cases hcx : c = x
          · exact hcx ▸ List.mem_cons_self _ _
          · exact List.mem_cons_of_mem _
              ((ih (x :: seen)).mpr ⟨h1, fun hc => by
                rcases List.mem_cons.mp hc with h | h
                · exact hcx h
                · exact h2 h⟩)

theorem greedyEnd_subseq : ∀ (s cs : List Char) {e : Nat},
    greedyEnd cs s = some e → subseq cs s = true := by
  intro s
  induction s with
  | nil =>
    intro cs e h
    cases cs with
    | nil => rfl
    | cons c cs => simp [greedyEnd] at h
  | cons d ds ih =>
    intro cs e h
    cases cs with
    | nil => rfl
    | cons c cs =>
      by_cases hc : c = d
      · simp only [greedyEnd, if_pos hc] at h
        simp only [subseq, if_pos hc]
        cases hge : greedyEnd cs ds with
        | none => rw [hge] at h; simp at h
        | some e2 => exact ih cs hge
      · simp only [greedyEnd, if_neg hc] at h
        simp only [subseq, if_neg hc]
        cases hge : greedyEnd (c :: cs) ds with
        | none => rw [hge] at h; simp at h
        | some e2 => exact ih (c :: cs) hge

theorem fuzzyMatch_subseq : ∀ (s cs : List Char) {r : Nat × Nat},
    fuzzyMatch cs s = some r → subseq cs s = true := by
  intro s
  induction s with
  | nil =>
    intro cs r h
    cases cs with
    | nil => rfl
    | cons c cs => simp [fuzzyMatch] at h
  | cons d ds ih =>
    intro cs r h
    cases cs with
    | nil => rfl
    | cons c cs =>
      by_cases hc : c = d
      · simp only [fuzzyMatch, if_pos hc] at h
        simp only [subseq, if_pos hc]
        cases hge : greedyEnd cs ds with
        | none => rw [hge] at h; simp at h
        | some e2 => exact greedyEnd_subseq ds cs hge
      · simp only [fuzzyMatch, if_neg hc] at h
        simp only [subseq, if_neg hc]
        cases hfm : fuzzyMatch (c :: cs) ds with
        | none => rw [hfm] at h; simp at h
        | some r2 => exact ih (c :: cs) hfm

theorem strFind_spec (s t : List Char) (limit : Option Nat) (p : Nat)
    (h : strFind s t limit = some p) :
    substrAt s t p = true ∧ ∀ L, limit = some L → p + t.length ≤ L := by
  have hp := List.find?_some h
  rw [Bool.and_eq_true] at hp
  refine ⟨hp.1, ?_⟩
  intro L hL
  subst hL
  exact of_decide_eq_true hp.2

theorem strFind_start_only (s t : List Char) (p : Nat)
    (h : strFind s t (some t.length) = some p) : startsList t s = true := by
  obtain ⟨h1, h2⟩ := strFind_spec s t (some t.length) p h
  have hp : p = 0 := by have := h2 t.length rfl; omega
  subst hp
  simpa [substrAt] using h1

/-! ### Concrete example states -/

/-- A bare state with empty vocabularies and empty catalog. -/
def empty_state : SQLCompleter :=
  { keywords := [], special_commands := [], table_formats := [],
    databases := [], users := [], show_items := [], change_items := [], dbname := "",
    tables := [], views := [], functions_meta := [], all_completions := ∅ }

/-- A state with schema `S` holding a table `T` with stored columns
`["c1", "c2"]`. -/
def exC1 : SQLCompleter :=
  { empty_state with tables := [("S", [("T", ["c1", "c2"])])] }

/-- A state built through the extension operations: schema `S`, tables `T1`
and `T2`, with columns `A, X` and `X, B` respectively (each column list
additionally holding the `*` sentinel from relation registration). -/
def exC2 : SQLCompleter :=
  (extend_columns
    (extend_relations (extend_schemata (init_state [] []) ["S"]) (some ["T1", "T2"])
      RelKind.tables "S")
    (some [("T1", "A"), ("T1", "X"), ("T2", "X"), ("T2", "B")]) RelKind.tables "S").1

/-! ### Claim theorems -/

/-- C1: `populate_scoped_cols` resolves each reference's schema to the
explicit schema or else the current database, uppercased; looks the relation
up under `tables[schema]`, then under the escaped name form, then under
`views[schema]`; contributes no columns for a reference absent from both;
and returns the concatenation of the resolved column lists in reference
order, preserving duplicates.  In particular, for a registered schema `S`
and relation `R` with stored columns `cols`, resolving `[(S, R, null)]`
returns exactly `cols`. -/
theorem C1_scope_resolution (st : SQLCompleter) :
    (∀ refs, populate_scoped_cols st refs = (refs.map (spec_resolve_ref st)).flatten) ∧
    (∀ S R cols, S ≠ "" → dget2 st.tables (pyUpper S) R = some cols →
      populate_scoped_cols st [(some S, R, none)] = cols) := by
  constructor
  · intro refs
    unfold populate_scoped_cols
    rw [populate_scoped_cols_aux]
    simp
  · intro S R cols hS hget
    show List.foldl (scoped_col_step st) [] [(some S, R, none)] = cols
    rw [List.foldl_cons, List.foldl_nil, scoped_col_step_eq, List.nil_append]
    unfold spec_resolve_ref
    simp only [pyOr, if_neg hS]
    rw [hget]

/-- Closed witness for C1 at a concrete catalog. -/
theorem C1_scope_resolution_witness :
    populate_scoped_cols exC1 [(some "S", "T", none)] = ["c1", "c2"] :=
  (C1_scope_resolution exC1).2 "S" "T" ["c1", "c2"] (by decide) (by decide)

/-- C2: the `drop_unique` post-filter keeps exactly the column names whose
total occurrence count across the scoped column list is at least 2,
excluding the wildcard sentinel `*`; for two relations sharing exactly the
column `X` (with otherwise disjoint columns) the filtered result is exactly
`["X"]`. -/
theorem C2_drop_unique (cols : List String) (c : String) :
    (c ∈ drop_unique_filter cols ↔ c ∈ cols ∧ 2 ≤ cols.count c ∧ c ≠ "*") ∧
    drop_unique_filter
      (populate_scoped_cols exC2 [(some "S", "T1", none), (some "S", "T2", none)]) =
      ["X"] := by
  constructor
  · unfold drop_unique_filter
    rw [List.mem_filter, mem_dedupFirstAux]
    simp only [List.not_mem_nil, not_false_iff, and_true, Bool.and_eq_true,
      decide_eq_true_eq, bne_iff_ne, ne_eq]
    constructor
    · rintro ⟨h1, h2, h3⟩
      exact ⟨h1, by omega, h3⟩
    · rintro ⟨h1, h2, h3⟩
      exact ⟨h1, by omega, h3⟩
  · decide

/-- C3: soundness of `find_matches`.  With `fuzzy = false` and
`start_only = true`, every returned candidate begins (case-insensitively)
with the extracted last-word token; with `fuzzy = true`, every returned
candidate contains the token's characters (case-insensitively) as a
subsequence. -/
theorem C3_find_matches_sound (text : String) (coll : List String) (so : Bool)
    (item : String) (off : Int) :
    ((item, off) ∈ find_matches text coll true false →
      startsList (tokenOf text).data (pyLower item).data = true) ∧
    ((item, off) ∈ find_matches text coll so true →
      subseq (tokenOf text).data (pyLower item).data = true) := by
  constructor
  · intro h
    obtain ⟨tr, htr, heq⟩ := List.mem_map.mp h
    have htr2 : tr ∈ (List.insertionSort strLeP coll).filterMap
        (fun it => (strFind (pyLower it).data (tokenOf text).data
            (some (tokenOf text).data.length)).map
          (fun p => ((tokenOf text).data.length, p, it))) :=
      (List.mem_insertionSort tripleLe).mp htr
    obtain ⟨it, _, hf⟩ := List.mem_filterMap.mp htr2
    cases hsf : strFind (pyLower it).data (tokenOf text).data
        (some (tokenOf text).data.length) with
    | none => rw [hsf] at hf; simp at hf
    | some p =>
      rw [hsf] at hf
      simp only [Option.map_some'] at hf
      have hit : it = item := by
        injection hf with hf2
        have h3 := congrArg (fun x => x.1) heq
        simp only at h3
        rw [← hf2] at h3
        exact h3
      subst hit
      exact strFind_start_only _ _ _ hsf
  · intro h
    obtain ⟨tr, htr, heq⟩ := List.mem_map.mp h
    have htr2 : tr ∈ (List.insertionSort strLeP coll).filterMap
        (fun it => (fuzzyMatch (tokenOf text).data (pyLower it).data).map
          (fun pl => (pl.2, pl.1, it))) :=
      (List.mem_insertionSort tripleLe).mp htr
    obtain ⟨it, _, hf⟩ := List.mem_filterMap.mp htr2
    cases hfm : fuzzyMatch (tokenOf text).data (pyLower it).data with
    | none => rw [hfm] at hf; simp at hf
    | some pl =>
      rw [hfm] at hf
      simp only [Option.map_some'] at hf
      have hit : it = item := by
        injection hf with hf2
        have h3 := congrArg (fun x => x.1) heq
        simp only at h3
        rw [← hf2] at h3
        exact h3
      subst hit
      exact fuzzyMatch_subseq _ _ hfm

/-- Closed witness for C3 at a concrete matcher call. -/
theorem C3_find_matches_sound_witness :
    startsList (tokenOf "sel").data (pyLower "SELECT").data = true ∧
    subseq (tokenOf "su").data (pyLower "SUBSTR").data = true :=
  ⟨(C3_find_matches_sound "sel" ["SELECT"] false "SELECT" (-3)).1 (by decide),
   (C3_find_matches_sound "su" ["SUBSTR"] false "SUBSTR" (-2)).2 (by decide)⟩

/-- C4: `find_matches` is deterministic and idempotent for fixed inputs, and
its score-triple sequence is sorted ascending by the score key
(matched-span length, match start offset) with the candidate text as final
tiebreak — i.e. by the lexicographic order `tripleLe`. -/
theorem C4_find_matches_deterministic (text : String) (coll : List String)
    (so fz : Bool) :
    find_matches text coll so fz = find_matches text coll so fz ∧
    List.Sorted tripleLe (find_matches_scored text coll so fz) :=
  ⟨rfl, List.sorted_insertionSort tripleLe _⟩

/-- C5: every match emitted by `find_matches` carries a replacement offset
equal to minus the length of the extracted last-word token; in particular,
with word-before-cursor `"sel"` and a keyword vocabulary containing
`SELECT`, the keyword branch returns `SELECT` with insertion offset `-3`. -/
theorem C5_replacement_offset (text : String) (coll : List String) (so fz : Bool)
    (item : String) (off : Int) (st : SQLCompleter) :
    ((item, off) ∈ find_matches text coll so fz →
      off = -((tokenOf text).length : Int)) ∧
    ("SELECT" ∈ st.keywords →
      ("SELECT", (-3 : Int)) ∈ keyword_completions st "sel") := by
  constructor
  · intro h
    obtain ⟨tr, _, heq⟩ := List.mem_map.mp h
    have := congrArg (fun x => x.2) heq
    simpa using this.symm
  · intro hsel
    have hmem : ((3 : Nat), (0 : Nat), "SELECT") ∈
        find_matches_scored "sel" st.keywords true false :=
      (List.mem_insertionSort tripleLe).mpr
        (List.mem_filterMap.mpr ⟨"SELECT", (List.mem_insertionSort strLeP).mpr hsel, by decide⟩)
    exact List.mem_map.mpr ⟨(3, 0, "SELECT"), hmem, by decide⟩

/-- Closed witness for C5 at a concrete vocabulary. -/
theorem C5_replacement_offset_witness :
    ("SELECT", (-3 : Int)) ∈
      keyword_completions { empty_state with keywords := ["SELECT"] } "sel" :=
  (C5_replacement_offset "x" [] false false "X" 0
      { empty_state with keywords := ["SELECT"] }).2 (by decide)

/-- C6 counterexample: `reset_completions` does not clear the change-items
vocabulary, refuting the claim that it clears all session-derived
vocabularies. -/
theorem C6_reset_counterexample :
    (reset_completions (extend_change_items (init_state [] []) [["FOO"]])).change_items ≠
      [] := by decide

/-- C6 (amended): `reset_completions` clears the databases, users and
show-items vocabularies and the current database name (but not the
change-items vocabulary), reinitializes the three object maps to empty maps
that still accept schema insertion, reinitializes the global completion set
to exactly keywords ∪ built-in functions, and is idempotent. -/
theorem C6_reset_amended (st : SQLCompleter) :
    (reset_completions st).databases = [] ∧
    (reset_completions st).users = [] ∧
    (reset_completions st).show_items = [] ∧
    (reset_completions st).dbname = "" ∧
    (reset_completions st).tables = [] ∧
    (reset_completions st).views = [] ∧
    (reset_completions st).functions_meta = [] ∧
    (reset_completions st).all_completions = (st.keywords ++ functions).toFinset ∧
    reset_completions (reset_completions st) = reset_completions st ∧
    (∀ s,
      dget (extend_schemata_single (reset_completions st) s).tables (pyUpper s) = some [] ∧
      dget (extend_schemata_single (reset_completions st) s).views (pyUpper s) = some [] ∧
      dget (extend_schemata_single (reset_completions st) s).functions_meta (pyUpper s) =
        some []) := by
  refine ⟨rfl, rfl, rfl, rfl, rfl, rfl, rfl, rfl, rfl, ?_⟩
  intro s
  refine ⟨?_, ?_, ?_⟩ <;>
    simp [extend_schemata_single, reset_completions, dinsert, dget]

/-- C7: enumeration failure of the lazy entries sequence leaves
`extend_relations`, `extend_columns` and `extend_functions` with no entries
added and no exception escaping; lookups for an unknown schema return an
empty result without raising; extending columns for a relation that was
never registered raises. -/
theorem C7_error_containment (st : SQLCompleter) (k : RelKind) (schema : String)
    (sOpt : Option String) (o : ObjType) (rel col : String) :
    extend_relations st none k schema = st ∧
    extend_columns st none k schema = (st, false) ∧
    extend_functions st none schema = (st, false) ∧
    (schema_objects_keys st o (pyUpper (pyOr sOpt st.dbname)) = none →
      populate_schema_objects st sOpt o = []) ∧
    (dget2 (relMap st k) (pyUpper schema) rel = none →
      (extend_columns st (some [(rel, col)]) k schema).2 = true) := by
  refine ⟨rfl, rfl, rfl, ?_, ?_⟩
  · intro h
    unfold populate_schema_objects
    rw [h]
    rfl
  · intro h
    show (extend_columns_go k (pyUpper schema) st [(rel, col)]).2 = true
    unfold extend_columns_go
    unfold dget2 at h
    cases hg : dget (relMap st k) (pyUpper schema) with
    | none => simp [hg]
    | some m =>
      simp only [hg] at h ⊢
      simp [h]

/-- Closed witness for C7 at a concrete catalog. -/
theorem C7_error_containment_witness :
    extend_relations empty_state none RelKind.tables "S" = empty_state ∧
    populate_schema_objects empty_state (some "NOPE") ObjType.tables = [] ∧
    (extend_columns empty_state (some [("R", "c")]) RelKind.tables "S").2 = true :=
  ⟨(C7_error_containment empty_state RelKind.tables "S" (some "NOPE") ObjType.tables
      "R" "c").1,
   (C7_error_containment empty_state RelKind.tables "S" (some "NOPE") ObjType.tables
      "R" "c").2.2.2.1 (by decide),
   (C7_error_containment empty_state RelKind.tables "S" (some "NOPE") ObjType.tables
      "R" "c").2.2.2.2 (by decide)⟩

/-! ### Catalog-invariant machinery for C8 -/

theorem mem_dkeys_dinsert {α : Type} (k k' : String) (v : α) :
    ∀ d : Dict α, k' ∈ dkeys (dinsert d k v) → k' = k ∨ k' ∈ dkeys d := by
  intro d
  induction d with
  | nil =>
    intro h
    simp [dinsert, dkeys] at h
    exact Or.inl h
  | cons kv rest ih =>
    obtain ⟨k1, v1⟩ := kv
    intro h
    by_cases hk : k1 = k
    · simp only [dinsert, if_pos hk] at h
      simp only [dkeys, List.map_cons, List.mem_cons] at h ⊢
      rcases h with h | h
      · exact Or.inl h
      · exact Or.inr (Or.inr h)
    · simp only [dinsert, if_neg hk] at h
      simp only [dkeys, List.map_cons, List.mem_cons] at h ⊢
      rcases h with h | h
      · exact Or.inr (Or.inl h)
      · rcases ih h with h2 | h2
        · exact Or.inl h2
        · exact Or.inr (Or.inr h2)

theorem dget_some_mem_dkeys {α : Type} (k : String) (v : α) :
    ∀ d : Dict α, dget d k = some v → k ∈ dkeys d := by
  intro d
  induction d with
  | nil => intro h; simp [dget] at h
  | cons kv rest ih =>
    obtain ⟨k1, v1⟩ := kv
    intro h
    simp only [dget] at h
    by_cases hk : k1 = k
    · simp [dkeys, hk]
    · rw [if_neg hk] at h
      simp only [dkeys, List.map_cons, List.mem_cons]
      exact Or.inr (ih h)

/-- Every key of the dictionary is its own canonical uppercase form. -/
def upKeys {α : Type} (d : Dict α) : Prop := ∀ k ∈ dkeys d, pyUpper k = k

/-- All schema keys of the three object maps are canonically uppercased. -/
def schemaKeysUpper (st : SQLCompleter) : Prop :=
  upKeys st.tables ∧ upKeys st.views ∧ upKeys st.functions_meta

theorem upKeys_dinsert {α : Type} (d : Dict α) (k : String) (v : α)
    (hd : upKeys d) (hk : pyUpper k = k) : upKeys (dinsert d k v) := by
  intro k' hmem
  rcases mem_dkeys_dinsert k k' v d hmem with rfl | h
  · exact hk
  · exact hd k' h

/-- The catalog-extension operations named by the storage-invariant claim. -/
inductive CatalogOp where
  | schemata (names : List String) : CatalogOp
  | relations (data : Option (List String)) (kind : RelKind) (schema : String) : CatalogOp
  | columns (data : Option (List (String × String))) (kind : RelKind)
      (schema : String) : CatalogOp
  | functionsOp (data : Option (List String)) (schema : String) : CatalogOp
  | dbnameOp (name : String) : CatalogOp

/-- Apply one catalog-extension operation (dropping the raised-exception
flag where there is one). -/
def applyOp (st : SQLCompleter) : CatalogOp → SQLCompleter
  | .schemata names => extend_schemata st names
  | .relations data kind schema => extend_relations st data kind schema
  | .columns data kind schema => (extend_columns st data kind schema).1
  | .functionsOp data schema => (extend_functions st data schema).1
  | .dbnameOp name => set_dbname st name

/-- Apply a sequence of catalog-extension operations. -/
def applyOps (st : SQLCompleter) (ops : List CatalogOp) : SQLCompleter :=
  ops.foldl applyOp st

theorem schemaKeysUpper_extend_schemata_single (st : SQLCompleter) (s : String)
    (h : schemaKeysUpper st) : schemaKeysUpper (extend_schemata_single st s) :=
  ⟨upKeys_dinsert _ _ _ h.1 (pyUpper_idem s),
   upKeys_dinsert _ _ _ h.2.1 (pyUpper_idem s),
   upKeys_dinsert _ _ _ h.2.2 (pyUpper_idem s)⟩

theorem schemaKeysUpper_extend_schemata (names : List String) :
    ∀ st : SQLCompleter, schemaKeysUpper st →
      schemaKeysUpper (extend_schemata st names) := by
  induction names with
  | nil => intro st h; exact h
  | cons n ns ih =>
    intro st h
    exact ih _ (schemaKeysUpper_extend_schemata_single st n h)

theorem schemaKeysUpper_relation_step (kind : RelKind) (s name : String)
    (st : SQLCompleter) (hs : pyUpper s = s) (h : schemaKeysUpper st) :
    schemaKeysUpper (relation_step kind s st name) := by
  unfold relation_step
  cases hg : dget (relMap st kind) s with
  | none => exact h
  | some m =>
    cases kind with
    | tables => exact ⟨upKeys_dinsert _ _ _ h.1 hs, h.2.1, h.2.2⟩
    | views => exact ⟨h.1, upKeys_dinsert _ _ _ h.2.1 hs, h.2.2⟩

theorem schemaKeysUpper_relation_steps (kind : RelKind) (s : String)
    (hs : pyUpper s = s) :
    ∀ (names : List String) (st : SQLCompleter), schemaKeysUpper st →
      schemaKeysUpper (names.foldl (relation_step kind s) st) := by
  intro names
  induction names with
  | nil => intro st h; exact h
  | cons n ns ih =>
    intro st h
    exact ih _ (schemaKeysUpper_relation_step kind s n st hs h)

theorem schemaKeysUpper_extend_columns_go (kind : RelKind) (s : String)
    (hs : pyUpper s = s) :
    ∀ (rows : List (String × String)) (st : SQLCompleter), schemaKeysUpper st →
      schemaKeysUpper (extend_columns_go kind s st rows).1 := by
  intro rows
  induction rows with
  | nil => intro st h; exact h
  | cons rc rest ih =>
    obtain ⟨rel, col⟩ := rc
    intro st h
    unfold extend_columns_go
    split
    · exact h
    · split
      · exact h
      · apply ih
        cases kind with
        | tables => exact ⟨upKeys_dinsert _ _ _ h.1 hs, h.2.1, h.2.2⟩
        | views => exact ⟨h.1, upKeys_dinsert _ _ _ h.2.1 hs, h.2.2⟩

theorem schemaKeysUpper_extend_functions_go (s : String) :
    ∀ (rows : List String) (st : SQLCompleter), schemaKeysUpper st →
      schemaKeysUpper (extend_functions_go s st rows).1 := by
  intro rows
  induction rows with
  | nil => intro st h; exact h
  | cons f rest ih =>
    intro st h
    unfold extend_functions_go
    cases hg : dget st.functions_meta s with
    | none => exact h
    | some m =>
      apply ih
      have hsu : pyUpper s = s := h.2.2 s (dget_some_mem_dkeys s m st.functions_meta hg)
      exact ⟨h.1, h.2.1, upKeys_dinsert _ _ _ h.2.2 hsu⟩

theorem schemaKeysUpper_applyOp (st : SQLCompleter) (op : CatalogOp)
    (h : schemaKeysUpper st) : schemaKeysUpper (applyOp st op) := by
  cases op with
  | schemata names => exact schemaKeysUpper_extend_schemata names st h
  | relations data kind schema =>
    exact schemaKeysUpper_relation_steps kind (pyUpper schema) (pyUpper_idem schema) _ st h
  | columns data kind schema =>
    exact schemaKeysUpper_extend_columns_go kind (pyUpper schema) (pyUpper_idem schema)
      _ st h
  | functionsOp data schema => exact schemaKeysUpper_extend_functions_go schema _ st h
  | dbnameOp name => exact h

/-- C8 counterexample: object names are stored as supplied, not uppercased —
after registering schema `S` and extending it with a relation named `t`,
the catalog holds the key `t`, whose uppercase form differs. -/
theorem C8_storage_counterexample :
    dget2 (applyOps empty_state
        [CatalogOp.schemata ["S"],
         CatalogOp.relations (some ["t"]) RelKind.tables "S"]).tables "S" "t" =
      some ["*"] ∧
    pyUpper "t" ≠ "t" := by decide

/-- C8 (amended): after any sequence of extension operations starting from a
state whose schema keys are canonically uppercased, every schema key of the
object maps is still canonically uppercased (object names, however, are
stored as supplied). -/
theorem C8_schema_keys_upper (st : SQLCompleter) (ops : List CatalogOp) :
    schemaKeysUpper st → schemaKeysUpper (applyOps st ops) := by
  induction ops generalizing st with
  | nil => intro h; exact h
  | cons op rest ih =>
    intro h
    exact ih _ (schemaKeysUpper_applyOp st op h)

/-- Closed witness for C8 at a concrete operation sequence. -/
theorem C8_schema_keys_upper_witness :
    schemaKeysUpper (applyOps empty_state
      [CatalogOp.schemata ["s"],
       CatalogOp.relations (some ["t"]) RelKind.tables "s"]) :=
  C8_schema_keys_upper empty_state
    [CatalogOp.schemata ["s"], CatalogOp.relations (some ["t"]) RelKind.tables "s"]
    (by refine ⟨?_, ?_, ?_⟩ <;> intro k hk <;> simp [empty_state, dkeys] at hk)

/-- C9: `_extend_schemata` uppercases the name and gives every object-kind
map an empty entry for the schema, but adds the individual characters of the
uppercased name to the global completion set instead of the schema name as
one string (`set.update` iterates the string), contradicting the documented
intent: at input `"ab"` the completion set gains `"A"` and `"B"`, not
`"AB"`. -/
theorem C9_extend_schemata_adds_chars :
    dget (extend_schemata_single empty_state "ab").tables "AB" = some [] ∧
    dget (extend_schemata_single empty_state "ab").views "AB" = some [] ∧
    dget (extend_schemata_single empty_state "ab").functions_meta "AB" = some [] ∧
    (extend_schemata_single empty_state "ab").all_completions =
      ({"A", "B"} : Finset String) ∧
    "AB" ∉ (extend_schemata_single empty_state "ab").all_completions := by decide

set_option maxRecDepth 4000 in
/-- C10 counterexample: at word `"su"` with no schema qualifier, the
function branch does return both built-ins, but `SUM` is not ranked before
`SUBSTR`: both score `(2, 0)` and the candidate-text tiebreak puts
`SUBSTR` first. -/
theorem C10_ranking_counterexample :
    ("SUM", (-2 : Int)) ∈ function_branch empty_state none "su" ∧
    ¬ (function_branch empty_state none "su").indexOf ("SUM", (-2 : Int)) <
        (function_branch empty_state none "su").indexOf ("SUBSTR", (-2 : Int)) := by
  decide

set_option maxRecDepth 4000 in
/-- C10 (amended): end-to-end function suggestion with no schema qualifier
and current word `"su"` returns both `SUM` and `SUBSTR`, ordered by matched
span length then match position with the candidate text as tiebreak —
which places `SUBSTR` before `SUM`. -/
theorem C10_function_branch :
    function_branch empty_state none "su" =
      [("SUBSTR", (-2 : Int)), ("SUM", (-2 : Int))] := by
  decide

end Okcli
